import Mathlib

/-!
Verification of the string subsystem of `ergonomic-windows`
(`src/string.rs`, plus the command-line quoting routine of
`src/process.rs`).

Modelling conventions:
* a Rust `&str` is modelled by its sequence of Unicode scalar values,
  a `List Nat` each member of which satisfies `isScalar`;
* a `u16` buffer (`&[u16]`, the content of a `Vec<u16>`) is a `List Nat`
  whose members are below `2 ^ 16` where that matters;
* a `Vec<u16>` is a pair of its content and its capacity (`VecU16`);
* fallible operations return `Except Error`, mirroring `Result<_, Error>`.
-/

set_option autoImplicit false

namespace ErgonomicWindows

/-- A Unicode scalar value: a code point that is not a surrogate.
This is the invariant of Rust's `char`. -/
def isScalar (c : Nat) : Prop :=
  c < 0x110000 ∧ (c < 0xD800 ∨ 0xE000 ≤ c)

instance (c : Nat) : Decidable (isScalar c) := by
  unfold isScalar; infer_instance

/-- A valid text value (`&str`): every element is a Unicode scalar value. -/
def ValidText (s : List Nat) : Prop := ∀ c ∈ s, isScalar c

instance (s : List Nat) : Decidable (ValidText s) := by
  unfold ValidText; infer_instance

/-- Model of `char::len_utf16` from Rust: scalars below `0x10000` take one code
unit, all others take two (a surrogate pair). -/
def utf16LenChar (c : Nat) : Nat := if c < 0x10000 then 1 else 2

/-- UTF-16 length of a text: sum of the per-scalar UTF-16 lengths.
This is `s.chars().map(|c| c.len_utf16()).sum()` from the source. -/
def utf16Length (s : List Nat) : Nat := (s.map utf16LenChar).sum

/-- UTF-16 encoding of one scalar (`char::encode_utf16`): scalars below
`0x10000` are emitted as themselves, larger ones as a high/low surrogate
pair. -/
def encodeChar (c : Nat) : List Nat :=
  if c < 0x10000 then [c]
  else [0xD800 + (c - 0x10000) / 0x400, 0xDC00 + (c - 0x10000) % 0x400]

/-- Model of `s.encode_utf16()`: the concatenation of the per-scalar encodings,
in input order, with no terminator. -/
def encodeUtf16 (s : List Nat) : List Nat := (s.map encodeChar).flatten

/-- The error type (`error.rs`), restricted to the two kinds this
subsystem can produce. -/
inductive Error where
  | string_conversion (msg : String)
  | null_pointer (context : String)
deriving Repr, DecidableEq

/-- Model of `String::from_utf16` / `char::decode_utf16` collected into a result:
non-surrogate units decode to themselves; a high surrogate must be
followed by a low surrogate, the pair decoding to
`0x10000 + (hi - 0xD800) * 0x400 + (lo - 0xDC00)`; any unpaired
surrogate (lone high at end of input, high not followed by a low, or a
low surrogate first) is an error.  The one- and two-unit head patterns
below are the iterator's "next unit / need one more unit" cases. -/
def decodeUtf16 : List Nat → Except Error (List Nat)
  | [] => .ok []
  | [u] =>
    if u < 0xD800 ∨ 0xE000 ≤ u then (decodeUtf16 []).map (fun t => u :: t)
    else .error (.string_conversion "Invalid UTF-16 sequence")
  | u :: v :: rest =>
    if u < 0xD800 ∨ 0xE000 ≤ u then (decodeUtf16 (v :: rest)).map (fun t => u :: t)
    else if u < 0xDC00 then
      if 0xDC00 ≤ v ∧ v < 0xE000 then
        (decodeUtf16 rest).map (fun t => (0x10000 + (u - 0xD800) * 0x400 + (v - 0xDC00)) :: t)
      else .error (.string_conversion "Invalid UTF-16 sequence")
    else .error (.string_conversion "Invalid UTF-16 sequence")

/-- Model of `to_wide` (string.rs:21): encode to UTF-16 and append the null
terminator.  (The source pre-allocates `s.len() + 1` units; capacity is
a performance detail not visible through the returned slice.) -/
def to_wide (s : List Nat) : List Nat := encodeUtf16 s ++ [0]

/-- Rust's `Iterator::position`: index of the first element satisfying
`p`, if any. -/
def position {α : Type} (p : α → Bool) : List α → Option Nat
  | [] => none
  | a :: l => if p a then some 0 else (position p l).map (fun i => i + 1)

/-- Model of `from_wide` (string.rs:56): find the first null terminator if
present (`position` / `unwrap_or(len)`), decode everything before it. -/
def from_wide (wide : List Nat) : Except Error (List Nat) :=
  decodeUtf16 (wide.take ((position (fun c => c == 0) wide).getD wide.length))

/-- Model of `from_wide_ptr` (string.rs:94).  A `*const u16` is modelled as
`none` (null) or `some mem` where `mem` is the null-terminated memory
the caller guarantees; the source scans to the terminator and decodes
the units before it. -/
def from_wide_ptr (ptr : Option (List Nat)) : Except Error (List Nat) :=
  match ptr with
  | none => .error (.null_pointer "from_wide_ptr received null pointer")
  | some mem => from_wide (mem.takeWhile (fun c => c != 0))

/-- Model of `from_wide_with_len` (string.rs:116): clamp the requested length to
the slice length and decode exactly that prefix, with no search for a
null terminator. -/
def from_wide_with_len (wide : List Nat) (len : Nat) : Except Error (List Nat) :=
  decodeUtf16 (wide.take (min len wide.length))

/-- Well-formed UTF-16: the sequence decomposes into non-surrogate
units and high/low surrogate pairs.  This is the validity notion of the
spec's glossary, stated independently of the decoder. -/
inductive Utf16Valid : List Nat → Prop
  | nil : Utf16Valid []
  | unit {u : Nat} (hu : u < 0xD800 ∨ 0xE000 ≤ u) {rest : List Nat}
      (h : Utf16Valid rest) : Utf16Valid (u :: rest)
  | pair {u v : Nat} (hu : 0xD800 ≤ u ∧ u < 0xDC00) (hv : 0xDC00 ≤ v ∧ v < 0xE000)
      {rest : List Nat} (h : Utf16Valid rest) : Utf16Valid (u :: v :: rest)

/-! The `Vec<u16>` model: content plus capacity. -/

/-- A `Vec<u16>`: its content and its capacity in code units.
`Vec::new()` is `⟨[], 0⟩`. -/
structure VecU16 where
  data : List Nat
  cap : Nat
deriving Repr, DecidableEq, Inhabited

/-- Model of `Vec::with_capacity(n)`: empty content, capacity `n`. -/
def VecU16.withCapacity (n : Nat) : VecU16 := ⟨[], n⟩

/-- Capacity after making room for a total of `needed` elements:
unchanged while it suffices, otherwise grown (Rust's `RawVec` amortized
growth; no claim depends on the grown value, only on whether growth
happens). -/
def VecU16.grow (c needed : Nat) : Nat :=
  if needed ≤ c then c else max (2 * c) needed

/-- Model of `Vec::push`. -/
def VecU16.push (v : VecU16) (x : Nat) : VecU16 :=
  ⟨v.data ++ [x], VecU16.grow v.cap (v.data.length + 1)⟩

/-- Model of `Vec::extend` with a sequence of elements. -/
def VecU16.extend (v : VecU16) (xs : List Nat) : VecU16 :=
  ⟨v.data ++ xs, VecU16.grow v.cap (v.data.length + xs.length)⟩

/-- Model of `Vec::clear`: drops the content, keeps the capacity. -/
def VecU16.clear (v : VecU16) : VecU16 := ⟨[], v.cap⟩

/-- Model of `Vec::len`. -/
def VecU16.len (v : VecU16) : Nat := v.data.length

/-! The SSO string (`WideString`, string.rs:199-416). -/

/-- Model of `INLINE_CAP` (string.rs:205). -/
def INLINE_CAP : Nat := 23

/-- Model of `WideStringRepr` (string.rs:222): inline storage (a 23-unit array
plus a length byte counting the terminator) or heap storage.  The
inline `buf` always has length `INLINE_CAP`; `len ≤ INLINE_CAP ≤ 255`
wherever the source stores it, so the `u8` cast is lossless.  The heap
vector's capacity is not observable through any accessor, so the heap
payload is just the content. -/
inductive WideStringRepr where
  | inline (buf : List Nat) (len : Nat)
  | heap (vec : List Nat)
deriving Repr, DecidableEq

/-- Model of `WideString` (string.rs:217). -/
structure WideString where
  repr : WideStringRepr
deriving Repr, DecidableEq

/-- Model of `WideString::new` (string.rs:253).  In the inline branch the source
writes the encoded units one by one into a zero-initialised array and
then a terminator at the next index (already zero), producing the
encoding padded with zeros to `INLINE_CAP` units. -/
def WideString.new (s : List Nat) : WideString :=
  let utf16_len := utf16Length s
  let total_len := utf16_len + 1
  if total_len ≤ INLINE_CAP then
    ⟨.inline (encodeUtf16 s ++ List.replicate (INLINE_CAP - utf16_len) 0) total_len⟩
  else
    ⟨.heap (to_wide s)⟩

/-- Model of `WideString::with_capacity` (string.rs:286): small capacities give
an inline value holding only the terminator; larger ones give
`Heap(Vec::with_capacity(capacity))`, whose content is empty. -/
def WideString.with_capacity (capacity : Nat) : WideString :=
  if capacity ≤ INLINE_CAP then ⟨.inline (List.replicate INLINE_CAP 0) 1⟩
  else ⟨.heap []⟩

/-- Model of `path_to_wide` (string.rs:33).  A `&Path` is modelled by the code
units of its platform `encode_wide` representation; the function
appends the terminator. -/
def path_to_wide (p : List Nat) : List Nat := p ++ [0]

/-- Model of `WideString::from_path` (string.rs:303): encode the path, keep it
inline when the terminated encoding fits. -/
def WideString.from_path (p : List Nat) : WideString :=
  let wide := path_to_wide p
  if wide.length ≤ INLINE_CAP then
    ⟨.inline (wide ++ List.replicate (INLINE_CAP - wide.length) 0) wide.length⟩
  else
    ⟨.heap wide⟩

/-- Model of `WideString::from_vec` (string.rs:325). -/
def WideString.from_vec (vec : List Nat) : WideString :=
  if vec.length ≤ INLINE_CAP then
    ⟨.inline (vec ++ List.replicate (INLINE_CAP - vec.length) 0) vec.length⟩
  else
    ⟨.heap vec⟩

/-- Model of `WideString::len` (string.rs:359): stored length minus the
terminator, saturating (`Nat` subtraction is saturating). -/
def WideString.len (w : WideString) : Nat :=
  match w.repr with
  | .inline _ len => len - 1
  | .heap vec => vec.length - 1

/-- Model of `WideString::is_empty` (string.rs:368). -/
def WideString.is_empty (w : WideString) : Bool := w.len == 0

/-- Model of `WideString::is_inline` (string.rs:374). -/
def WideString.is_inline (w : WideString) : Bool :=
  match w.repr with
  | .inline _ _ => true
  | .heap _ => false

/-- Model of `WideString::as_slice` (string.rs:386): the first `len` units of
the inline array, or the whole heap vector.  `as_ptr` exposes the same
sequence, so null-termination claims are stated about this slice. -/
def WideString.as_slice (w : WideString) : List Nat :=
  match w.repr with
  | .inline buf len => buf.take len
  | .heap vec => vec

/-! The builder (`WideStringBuilder`, string.rs:123-197). -/

/-- Model of `WideStringBuilder` (string.rs:125): one growable buffer, no
terminator during accumulation. -/
structure WideStringBuilder where
  buffer : VecU16
deriving Repr, DecidableEq

/-- Model of `WideStringBuilder::new` (string.rs:132): `Default`, an empty
`Vec`. -/
def WideStringBuilder.new : WideStringBuilder := ⟨⟨[], 0⟩⟩

/-- Model of `WideStringBuilder::with_capacity` (string.rs:138). -/
def WideStringBuilder.with_capacity (capacity : Nat) : WideStringBuilder :=
  ⟨VecU16.withCapacity capacity⟩

/-- Model of `WideStringBuilder::push` (string.rs:146): extend with the UTF-16
encoding of `s`, no terminator. -/
def WideStringBuilder.push (b : WideStringBuilder) (s : List Nat) : WideStringBuilder :=
  ⟨b.buffer.extend (encodeUtf16 s)⟩

/-- Model of `WideStringBuilder::push_char` (string.rs:153). -/
def WideStringBuilder.push_char (b : WideStringBuilder) (c : Nat) : WideStringBuilder :=
  ⟨b.buffer.push c⟩

/-- Model of `WideStringBuilder::build` (string.rs:160): append the terminator
and hand out the buffer, consuming the builder. -/
def WideStringBuilder.build (b : WideStringBuilder) : List Nat :=
  (b.buffer.push 0).data

/-- Model of `WideStringBuilder::clear` (string.rs:167). -/
def WideStringBuilder.clear (b : WideStringBuilder) : WideStringBuilder :=
  ⟨b.buffer.clear⟩

/-- Model of `WideStringBuilder::build_and_clear` (string.rs:175): append the
terminator, then `mem::take` the buffer — the finished vector is
returned and the builder is left with a fresh `Vec::new()` (empty, zero
capacity). -/
def WideStringBuilder.build_and_clear (b : WideStringBuilder) : VecU16 × WideStringBuilder :=
  (b.buffer.push 0, ⟨⟨[], 0⟩⟩)

/-- Model of `WideStringBuilder::len` (string.rs:182). -/
def WideStringBuilder.len (b : WideStringBuilder) : Nat := b.buffer.data.length

/-- Model of `WideStringBuilder::is_empty` (string.rs:188). -/
def WideStringBuilder.is_empty (b : WideStringBuilder) : Bool := b.buffer.data.isEmpty

/-- Model of `WideStringBuilder::capacity` (string.rs:194). -/
def WideStringBuilder.capacity (b : WideStringBuilder) : Nat := b.buffer.cap

/-! The pool (`WideStringPool`, string.rs:447-637). -/

/-- A `PooledWideString` (string.rs:583): exclusive ownership of one
pooled buffer. -/
structure PooledWideString where
  buffer : VecU16
deriving Repr, DecidableEq

/-- Model of `WideStringPool` (string.rs:447). -/
structure WideStringPool where
  pool : List VecU16
  max_size : Nat
  max_capacity : Nat
deriving Repr, DecidableEq

/-- Model of `WideStringPool::new` (string.rs:461): defaults, 16 buffers of at
most 4096 units. -/
def WideStringPool.new : WideStringPool := ⟨[], 16, 4096⟩

/-- Model of `WideStringPool::with_limits` (string.rs:476).  (The source
pre-allocates the outer list's capacity, which is not modelled.) -/
def WideStringPool.with_limits (max_size max_capacity : Nat) : WideStringPool :=
  ⟨[], max_size, max_capacity⟩

/-- Model of `WideStringPool::with_preallocated` (string.rs:487): seed
`count` buffers of capacity `capacity` into a pool limited to `count`
buffers of at most `max(capacity, 4096)` units. -/
def WideStringPool.with_preallocated (count capacity : Nat) : WideStringPool :=
  ⟨List.replicate count (VecU16.withCapacity capacity), count, max capacity 4096⟩

/-- Model of `Vec::swap_remove(idx)` on the pool's outer vector: the element at
`idx` is removed and returned, the last element takes its place. -/
def swapRemove (l : List VecU16) (i : Nat) : VecU16 × List VecU16 :=
  (l.getD i default, (l.set i (l.getLastD default)).dropLast)

/-- Model of `WideStringPool::get` (string.rs:500): first-fit search for a
buffer with capacity at least `utf16Length s + 1`, removed by
`swap_remove`; otherwise a fresh buffer of exactly the required
capacity.  The buffer is cleared, filled with the encoding, and
terminated. -/
def WideStringPool.get (p : WideStringPool) (s : List Nat) :
    PooledWideString × WideStringPool :=
  let required := utf16Length s + 1
  match position (fun b => decide (required ≤ b.cap)) p.pool with
  | some idx =>
    let res := swapRemove p.pool idx
    (⟨((res.1.clear).extend (encodeUtf16 s)).push 0⟩, { p with pool := res.2 })
  | none =>
    (⟨(((VecU16.withCapacity required).clear).extend (encodeUtf16 s)).push 0⟩, p)

/-- Model of `WideStringPool::put` (string.rs:541): re-pool the cleared buffer
when the pool is not full and the buffer is not oversized; drop it
otherwise. -/
def WideStringPool.put (p : WideStringPool) (h : PooledWideString) : WideStringPool :=
  if p.pool.length < p.max_size ∧ h.buffer.cap ≤ p.max_capacity then
    { p with pool := p.pool ++ [h.buffer.clear] }
  else p

/-- Model of `WideStringPool::len` (string.rs:551). -/
def WideStringPool.len (p : WideStringPool) : Nat := p.pool.length

/-- Model of `WideStringPool::clear` (string.rs:563). -/
def WideStringPool.clear (p : WideStringPool) : WideStringPool := { p with pool := [] }

/-- Model of `WideStringPool::shrink_to` (string.rs:568): truncate. -/
def WideStringPool.shrink_to (p : WideStringPool) (size : Nat) : WideStringPool :=
  { p with pool := p.pool.take size }

/-- Model of `PooledWideString::len` (string.rs:602). -/
def PooledWideString.len (h : PooledWideString) : Nat := h.buffer.data.length - 1

/-- Model of `PooledWideString::as_slice` (string.rs:614). -/
def PooledWideString.as_slice (h : PooledWideString) : List Nat := h.buffer.data

/-- Pool states reachable through the public constructors and
operations (get with any valid text, put with any handle, clear,
shrink_to): the sequences of operations of claim C8. -/
inductive PoolReachable : WideStringPool → Prop
  | new : PoolReachable WideStringPool.new
  | with_limits (m c : Nat) : PoolReachable (WideStringPool.with_limits m c)
  | with_preallocated (n c : Nat) : PoolReachable (WideStringPool.with_preallocated n c)
  | get {p : WideStringPool} (s : List Nat) (h : PoolReachable p) :
      PoolReachable (p.get s).2
  | put {p : WideStringPool} (hd : PooledWideString) (h : PoolReachable p) :
      PoolReachable (p.put hd)
  | clear {p : WideStringPool} (h : PoolReachable p) : PoolReachable p.clear
  | shrink_to {p : WideStringPool} (n : Nat) (h : PoolReachable p) :
      PoolReachable (p.shrink_to n)

/-! The command-line quoter (`quote_arg`, process.rs:335-375).
Arguments are sequences of characters (`List Char`). -/

/-- The quoting trigger (process.rs:337): empty, or containing a
space, tab or double quote.  The source tests UTF-8 bytes; the byte
values of these three ASCII characters never occur inside a multi-byte
UTF-8 sequence, so the byte-level and character-level tests agree. -/
def needsQuoting (arg : List Char) : Bool :=
  arg.isEmpty || arg.any (fun c => c == ' ' || c == '\t' || c == '"')

/-- The scanning loop of `quote_arg` (process.rs:343-368), as a
single-pass state machine: `pending` counts the backslashes of the run
currently being scanned (the source counts the whole run before
peeking; emission is identical).  A run followed by a quote or by
end-of-input is emitted doubled, a run followed by anything else is
emitted unchanged, a literal quote is emitted as backslash-quote, any
other character is copied. -/
def quoteBodyAux : Nat → List Char → List Char
  | pending, [] => List.replicate (2 * pending) '\\'
  | pending, c :: rest =>
    if c == '\\' then quoteBodyAux (pending + 1) rest
    else if c == '"' then
      List.replicate (2 * pending) '\\' ++ '\\' :: '"' :: quoteBodyAux 0 rest
    else List.replicate pending '\\' ++ c :: quoteBodyAux 0 rest

/-- The body emitted between the enclosing quotes. -/
def quoteBody (l : List Char) : List Char := quoteBodyAux 0 l

/-- Model of `quote_arg` (process.rs:335): quote and escape when needed,
otherwise return the argument unchanged (`Cow::Borrowed`). -/
def quote_arg (arg : List Char) : List Char :=
  if needsQuoting arg then '"' :: (quoteBody arg ++ ['"'])
  else arg

/-! Basic facts about the codec. -/

theorem length_encodeChar (c : Nat) : (encodeChar c).length = utf16LenChar c := by
  unfold encodeChar utf16LenChar
  split <;> rfl

theorem length_encodeUtf16 (s : List Nat) : (encodeUtf16 s).length = utf16Length s := by
  unfold encodeUtf16 utf16Length
  induction s with
  | nil => rfl
  | cons c s ih =>
    simp [List.flatten, length_encodeChar, ih]

theorem encodeUtf16_append (a b : List Nat) :
    encodeUtf16 (a ++ b) = encodeUtf16 a ++ encodeUtf16 b := by
  unfold encodeUtf16
  simp

theorem encodeUtf16_cons (c : Nat) (s : List Nat) :
    encodeUtf16 (c :: s) = encodeChar c ++ encodeUtf16 s := by
  unfold encodeUtf16
  simp

/-- A nonzero scalar encodes to nonzero units only. -/
theorem zero_not_mem_encodeChar {c : Nat} (hc : c ≠ 0) : 0 ∉ encodeChar c := by
  unfold encodeChar
  split
  · simpa using fun h => hc h.symm
  · intro h
    simp at h
    rcases h with h | h <;> omega

/-- The encoding of the zero scalar is the single zero unit. -/
theorem encodeChar_zero : encodeChar 0 = [0] := by rfl

/-! Step equations for `decodeUtf16`. -/

theorem decodeUtf16_unit {u : Nat} (h : u < 0xD800 ∨ 0xE000 ≤ u) (rest : List Nat) :
    decodeUtf16 (u :: rest) = (decodeUtf16 rest).map (fun t => u :: t) := by
  cases rest with
  | nil => simp only [decodeUtf16, if_pos h]
  | cons v r => simp only [decodeUtf16, if_pos h]

theorem decodeUtf16_pair {u v : Nat} (h2 : 0xD800 ≤ u ∧ u < 0xDC00)
    (h3 : 0xDC00 ≤ v ∧ v < 0xE000) (rest : List Nat) :
    decodeUtf16 (u :: v :: rest) =
      (decodeUtf16 rest).map (fun t => (0x10000 + (u - 0xD800) * 0x400 + (v - 0xDC00)) :: t) := by
  simp only [decodeUtf16, if_neg (by omega : ¬ (u < 0xD800 ∨ 0xE000 ≤ u)),
    if_pos h2.2, if_pos h3]

theorem decodeUtf16_lone_high_end {u : Nat} (h : 0xD800 ≤ u ∧ u < 0xDC00) :
    decodeUtf16 [u] = .error (.string_conversion "Invalid UTF-16 sequence") := by
  simp only [decodeUtf16, if_neg (by omega : ¬ (u < 0xD800 ∨ 0xE000 ≤ u))]

theorem decodeUtf16_bad_pair {u v : Nat} (h2 : 0xD800 ≤ u ∧ u < 0xDC00)
    (h3 : ¬ (0xDC00 ≤ v ∧ v < 0xE000)) (rest : List Nat) :
    decodeUtf16 (u :: v :: rest) = .error (.string_conversion "Invalid UTF-16 sequence") := by
  simp only [decodeUtf16, if_neg (by omega : ¬ (u < 0xD800 ∨ 0xE000 ≤ u)),
    if_pos h2.2, if_neg h3]

theorem decodeUtf16_lone_low {u : Nat} (h : 0xDC00 ≤ u ∧ u < 0xE000) (rest : List Nat) :
    decodeUtf16 (u :: rest) = .error (.string_conversion "Invalid UTF-16 sequence") := by
  cases rest with
  | nil =>
    simp only [decodeUtf16, if_neg (by omega : ¬ (u < 0xD800 ∨ 0xE000 ≤ u))]
  | cons v r =>
    simp only [decodeUtf16, if_neg (by omega : ¬ (u < 0xD800 ∨ 0xE000 ≤ u)),
      if_neg (by omega : ¬ u < 0xDC00)]

/-- Round trip on encodings: decoding the encoding of a valid text
recovers it exactly. -/
theorem decode_encode (s : List Nat) (hs : ValidText s) :
    decodeUtf16 (encodeUtf16 s) = .ok s := by
  induction s with
  | nil => rfl
  | cons c s ih =>
    have hc : isScalar c := hs c (List.mem_cons_self c s)
    have hs' : ValidText s := fun x hx => hs x (List.mem_cons_of_mem c hx)
    rw [encodeUtf16_cons]
    rcases hc with ⟨hlt, hsur⟩
    by_cases hbmp : c < 0x10000
    · have henc : encodeChar c = [c] := by simp [encodeChar, hbmp]
      rw [henc, List.cons_append, List.nil_append, decodeUtf16_unit hsur, ih hs']
      rfl
    · have henc : encodeChar c =
          [0xD800 + (c - 0x10000) / 0x400, 0xDC00 + (c - 0x10000) % 0x400] := by
        simp [encodeChar, hbmp]
      have hdiv : (c - 0x10000) / 0x400 < 0x400 := by
        apply Nat.div_lt_of_lt_mul
        omega
      have hmod : (c - 0x10000) % 0x400 < 0x400 := Nat.mod_lt _ (by omega)
      rw [henc, List.cons_append, List.cons_append, List.nil_append,
        decodeUtf16_pair (by omega) (by omega), ih hs']
      have hdm := Nat.div_add_mod (c - 0x10000) 0x400
      simp [Except.map]
      omega


/-! Decoding succeeds exactly on well-formed UTF-16. -/

theorem not_valid_lone_low {u : Nat} (h : 0xDC00 ≤ u ∧ u < 0xE000) (rest : List Nat) :
    ¬ Utf16Valid (u :: rest) := by
  intro hv
  cases hv with
  | unit hu _ => omega
  | pair hu _ _ => omega

theorem not_valid_high_end {u : Nat} (h : 0xD800 ≤ u ∧ u < 0xDC00) :
    ¬ Utf16Valid [u] := by
  intro hv
  cases hv with
  | unit hu _ => omega

theorem not_valid_bad_pair {u v : Nat} (hu : 0xD800 ≤ u ∧ u < 0xDC00)
    (hv : ¬ (0xDC00 ≤ v ∧ v < 0xE000)) (rest : List Nat) :
    ¬ Utf16Valid (u :: v :: rest) := by
  intro hval
  cases hval with
  | unit hu' _ => omega
  | pair _ hv' _ => exact hv hv'

theorem valid_tail_of_unit {u : Nat} (hu : u < 0xD800 ∨ 0xE000 ≤ u) {rest : List Nat}
    (h : Utf16Valid (u :: rest)) : Utf16Valid rest := by
  cases h with
  | unit _ h => exact h
  | pair hu' _ h => omega

theorem valid_tail_of_pair {u v : Nat} (hu : 0xD800 ≤ u ∧ u < 0xDC00) {rest : List Nat}
    (h : Utf16Valid (u :: v :: rest)) : Utf16Valid rest := by
  cases h with
  | unit hu' _ => omega
  | pair _ _ h => exact h

/-- Master characterisation of the decoder: it returns `ok` precisely
on well-formed UTF-16, and otherwise the string-conversion error with
the source's message. -/
theorem decodeUtf16_total (l : List Nat) :
    (Utf16Valid l ∧ ∃ t, decodeUtf16 l = .ok t) ∨
      (¬ Utf16Valid l ∧
        decodeUtf16 l = .error (.string_conversion "Invalid UTF-16 sequence")) := by
  induction l using decodeUtf16.induct with
  | case1 =>
    exact Or.inl ⟨Utf16Valid.nil, [], rfl⟩
  | case2 u h =>
    left
    refine ⟨Utf16Valid.unit h Utf16Valid.nil, [u], ?_⟩
    rw [decodeUtf16_unit h]
    rfl
  | case3 u h =>
    right
    have h' : 0xD800 ≤ u ∧ u < 0xDC00 ∨ 0xDC00 ≤ u ∧ u < 0xE000 := by omega
    constructor
    · rcases h' with h' | h'
      · exact not_valid_high_end h'
      · exact not_valid_lone_low h' []
    · rcases h' with h' | h'
      · exact decodeUtf16_lone_high_end h'
      · exact decodeUtf16_lone_low h' []
  | case4 u v rest h ih =>
    rw [decodeUtf16_unit h]
    rcases ih with ⟨hv, t, ht⟩ | ⟨hv, ht⟩
    · exact Or.inl ⟨Utf16Valid.unit h hv, u :: t, by rw [ht]; rfl⟩
    · refine Or.inr ⟨fun hval => hv (valid_tail_of_unit h hval), ?_⟩
      rw [ht]
      rfl
  | case5 u v rest h1 h2 h3 ih =>
    have hu : 0xD800 ≤ u ∧ u < 0xDC00 := by omega
    rw [decodeUtf16_pair hu h3]
    rcases ih with ⟨hv, t, ht⟩ | ⟨hv, ht⟩
    · exact Or.inl ⟨Utf16Valid.pair hu h3 hv, _, by rw [ht]; rfl⟩
    · refine Or.inr ⟨fun hval => hv (valid_tail_of_pair hu hval), ?_⟩
      rw [ht]
      rfl
  | case6 u v rest h1 h2 h3 =>
    have hu : 0xD800 ≤ u ∧ u < 0xDC00 := by omega
    exact Or.inr ⟨not_valid_bad_pair hu h3 rest, decodeUtf16_bad_pair hu h3 rest⟩
  | case7 u v rest h1 h2 =>
    have hu : 0xDC00 ≤ u ∧ u < 0xE000 := by omega
    exact Or.inr ⟨not_valid_lone_low hu _, decodeUtf16_lone_low hu _⟩

theorem decodeUtf16_ok_iff (l : List Nat) :
    (∃ t, decodeUtf16 l = .ok t) ↔ Utf16Valid l := by
  rcases decodeUtf16_total l with ⟨hv, ht⟩ | ⟨hv, ht⟩
  · exact ⟨fun _ => hv, fun _ => ht⟩
  · constructor
    · rintro ⟨t, h⟩
      rw [ht] at h
      cases h
    · intro h
      exact absurd h hv

theorem decodeUtf16_error_iff (l : List Nat) :
    decodeUtf16 l = .error (.string_conversion "Invalid UTF-16 sequence") ↔
      ¬ Utf16Valid l := by
  rcases decodeUtf16_total l with ⟨hv, t, ht⟩ | ⟨hv, ht⟩
  · rw [ht]
    constructor
    · intro h
      cases h
    · intro h
      exact absurd hv h
  · exact ⟨fun _ => hv, fun _ => ht⟩

/-! Bridging `position`-based truncation and `takeWhile`. -/

theorem take_position_eq_takeWhile (w : List Nat) :
    w.take ((position (fun c => c == 0) w).getD w.length) =
      w.takeWhile (fun c => c != 0) := by
  induction w with
  | nil => rfl
  | cons a l ih =>
    by_cases ha : a = 0
    · subst ha
      simp [position, List.takeWhile_cons]
    · have hrhs : (a :: l).takeWhile (fun c => c != 0) =
          a :: l.takeWhile (fun c => c != 0) := by
        simp [List.takeWhile_cons, ha]
      have hlhs : position (fun c => c == 0) (a :: l) =
          (position (fun c => c == 0) l).map (fun i => i + 1) := by
        simp [position, ha]
      rw [hrhs, hlhs]
      cases hpos : position (fun c => c == 0) l with
      | none =>
        rw [hpos] at ih
        simp only [Option.getD_none] at ih
        rw [List.take_length] at ih
        simp only [Option.map_none', Option.getD_none, List.length_cons, List.take_succ_cons]
        rw [List.take_length, ← ih]
      | some i =>
        rw [hpos] at ih
        simp only [Option.getD_some] at ih
        simp only [Option.map_some', Option.getD_some, List.take_succ_cons]
        rw [ih]

theorem from_wide_eq_decode_takeWhile (w : List Nat) :
    from_wide w = decodeUtf16 (w.takeWhile (fun c => c != 0)) := by
  unfold from_wide
  rw [take_position_eq_takeWhile]

theorem takeWhile_append_all {α : Type} (p : α → Bool) {xs : List α}
    (h : ∀ x ∈ xs, p x = true) (ys : List α) :
    (xs ++ ys).takeWhile p = xs ++ ys.takeWhile p := by
  induction xs with
  | nil => rfl
  | cons a xs ih =>
    rw [List.cons_append, List.takeWhile_cons, h a (List.mem_cons_self a xs),
      ih (fun x hx => h x (List.mem_cons_of_mem a hx))]
    simp

/-- Truncating the terminated encoding at its first zero unit is the
same as encoding the text truncated at its first null scalar. -/
theorem takeWhile_to_wide (s : List Nat) :
    (to_wide s).takeWhile (fun u => u != 0) =
      encodeUtf16 (s.takeWhile (fun c => c != 0)) := by
  induction s with
  | nil => rfl
  | cons c s ih =>
    by_cases hc : c = 0
    · subst hc
      rfl
    · have hall : ∀ x ∈ encodeChar c, (x != 0) = true := by
        intro x hx
        have : x ≠ 0 := fun h0 => zero_not_mem_encodeChar hc (h0 ▸ hx)
        simp [this]
      have hstep : to_wide (c :: s) = encodeChar c ++ to_wide s := by
        unfold to_wide
        rw [encodeUtf16_cons, List.append_assoc]
      rw [hstep, takeWhile_append_all _ hall, ih]
      have hrhs : (c :: s).takeWhile (fun x => x != 0) =
          c :: s.takeWhile (fun x => x != 0) := by
        simp [List.takeWhile_cons, hc]
      rw [hrhs, encodeUtf16_cons]

theorem takeWhile_eq_self_of_zero_not_mem {s : List Nat} (h : 0 ∉ s) :
    s.takeWhile (fun c => c != 0) = s := by
  induction s with
  | nil => rfl
  | cons a l ih =>
    have ha : a ≠ 0 := fun e => h (e ▸ List.mem_cons_self a l)
    simp [List.takeWhile_cons, ha, ih (fun hm => h (List.mem_cons_of_mem a hm))]

theorem validText_takeWhile {s : List Nat} (hs : ValidText s) :
    ValidText (s.takeWhile (fun c => c != 0)) := by
  induction s with
  | nil =>
    intro c hc
    cases hc
  | cons a l ih =>
    intro c hc
    rw [List.takeWhile_cons] at hc
    by_cases ha : (a != 0) = true
    · rw [if_pos ha] at hc
      rcases List.mem_cons.mp hc with rfl | hc
      · exact hs c (List.mem_cons_self c l)
      · exact ih (fun x hx => hs x (List.mem_cons_of_mem a hx)) c hc
    · rw [if_neg ha] at hc
      cases hc

/-- Shared round-trip fact: `from_wide (to_wide s)` is `Ok` of `s`
truncated at its first null scalar. -/
theorem from_wide_to_wide (s : List Nat) (hs : ValidText s) :
    from_wide (to_wide s) = .ok (s.takeWhile (fun c => c != 0)) := by
  rw [from_wide_eq_decode_takeWhile, takeWhile_to_wide]
  exact decode_encode _ (validText_takeWhile hs)

/-- C1.  For every valid text `s`, `from_wide (to_wide s)` returns `Ok`
of the prefix of `s` up to (not including) its first embedded null
scalar; in particular, when `s` has no embedded null it returns
`Ok s` exactly. -/
theorem C1_roundtrip_truncates_at_first_null (s : List Nat) (hs : ValidText s) :
    from_wide (to_wide s) = .ok (s.takeWhile (fun c => c != 0)) ∧
      (0 ∉ s → from_wide (to_wide s) = .ok s) := by
  have key := from_wide_to_wide s hs
  refine ⟨key, fun h0 => ?_⟩
  rw [key, takeWhile_eq_self_of_zero_not_mem h0]

/-- Witness for C1: `"H\0i"` decodes back as `"H"`, and `"hi"` (no
embedded null) round-trips exactly. -/
theorem C1_roundtrip_truncates_at_first_null_witness :
    from_wide (to_wide [72, 0, 105]) = .ok [72] ∧
      from_wide (to_wide [104, 105]) = .ok [104, 105] := by
  constructor
  · exact (C1_roundtrip_truncates_at_first_null [72, 0, 105] (by decide)).1
  · exact (C1_roundtrip_truncates_at_first_null [104, 105] (by decide)).2 (by decide)


/-! WideString: length, SSO variant choice, null termination. -/

/-- C3.  `WideString::new(s).len()` is the UTF-16 length of `s`, and
the value is inline exactly when that length plus one terminator unit
fits in the inline capacity of 23 code units (at most 22 content
units). -/
theorem C3_new_len_and_inline_threshold (s : List Nat) (hs : ValidText s) :
    (WideString.new s).len = utf16Length s ∧
      ((WideString.new s).is_inline = true ↔ utf16Length s + 1 ≤ INLINE_CAP) ∧
      INLINE_CAP = 23 := by
  refine ⟨?_, ?_, rfl⟩
  · by_cases h : utf16Length s + 1 ≤ INLINE_CAP
    · simp only [WideString.new, if_pos h, WideString.len]
      omega
    · simp only [WideString.new, if_neg h, WideString.len]
      unfold to_wide
      rw [List.length_append, length_encodeUtf16]
      simp
  · by_cases h : utf16Length s + 1 ≤ INLINE_CAP
    · simp only [WideString.new, if_pos h, WideString.is_inline]
      simp [h]
    · simp only [WideString.new, if_neg h, WideString.is_inline]
      simp [h]

/-- Witness for C3: a 22-scalar ASCII string is stored inline with
length 22; a 23-scalar one goes to the heap with length 23. -/
theorem C3_new_len_and_inline_threshold_witness :
    (WideString.new (List.replicate 22 97)).len = 22 ∧
      (WideString.new (List.replicate 22 97)).is_inline = true ∧
      (WideString.new (List.replicate 23 97)).len = 23 ∧
      (WideString.new (List.replicate 23 97)).is_inline = false := by
  have h22 := C3_new_len_and_inline_threshold (List.replicate 22 97) (by decide)
  have h23 := C3_new_len_and_inline_threshold (List.replicate 23 97) (by decide)
  refine ⟨?_, ?_, ?_, ?_⟩
  · rw [h22.1]; rfl
  · exact h22.2.1.mpr (by decide)
  · rw [h23.1]; rfl
  · cases hb : (WideString.new (List.replicate 23 97)).is_inline with
    | false => rfl
    | true => exact absurd (h23.2.1.mp hb) (by decide)

/-- C2 (failing input).  `new`, `from_path`, `from_vec` of a terminated
vector, `to_wide`, and `with_capacity` at or below the inline bound all
expose a buffer whose last unit is zero; but
`WideString::with_capacity(24)` (any capacity above `INLINE_CAP`)
produces `Heap(Vec::with_capacity(24))`, whose exposed slice is empty
and therefore ends with no zero unit — the claimed invariant fails
there. -/
theorem C2_null_termination_with_capacity_bug :
    (∀ s : List Nat, ValidText s → (WideString.new s).as_slice.getLast? = some 0) ∧
      (∀ p : List Nat, (WideString.from_path p).as_slice.getLast? = some 0) ∧
      (∀ v : List Nat, v.getLast? = some 0 →
        (WideString.from_vec v).as_slice.getLast? = some 0) ∧
      (∀ s : List Nat, (to_wide s).getLast? = some 0) ∧
      (∀ n : Nat, n ≤ INLINE_CAP →
        (WideString.with_capacity n).as_slice.getLast? = some 0) ∧
      (WideString.with_capacity 24).as_slice = [] := by
  refine ⟨?_, ?_, ?_, ?_, ?_, rfl⟩
  · intro s hs
    by_cases h : utf16Length s + 1 ≤ INLINE_CAP
    · simp only [WideString.new, if_pos h, WideString.as_slice]
      rw [← length_encodeUtf16 s] at h ⊢
      have hpad : 1 ≤ INLINE_CAP - (encodeUtf16 s).length := by omega
      have := @List.take_append Nat (encodeUtf16 s)
        (List.replicate (INLINE_CAP - (encodeUtf16 s).length) 0) 1
      rw [this, List.take_replicate]
      have hmin : min 1 (INLINE_CAP - (encodeUtf16 s).length) = 1 := by omega
      rw [hmin]
      exact List.getLast?_concat _
    · simp only [WideString.new, if_neg h, WideString.as_slice]
      exact List.getLast?_concat _
  · intro p
    unfold WideString.from_path path_to_wide
    by_cases h : (p ++ [0]).length ≤ INLINE_CAP
    · simp only [if_pos h, WideString.as_slice]
      rw [List.take_left]
      exact List.getLast?_concat _
    · simp only [if_neg h, WideString.as_slice]
      exact List.getLast?_concat _
  · intro v hv
    unfold WideString.from_vec
    by_cases h : v.length ≤ INLINE_CAP
    · simp only [if_pos h, WideString.as_slice]
      rw [List.take_left]
      exact hv
    · simp only [if_neg h, WideString.as_slice]
      exact hv
  · intro s
    exact List.getLast?_concat _
  · intro n hn
    simp only [WideString.with_capacity, if_pos hn, WideString.as_slice]
    rfl

/-- Witness for C2's positive conjuncts at concrete inputs. -/
theorem C2_null_termination_with_capacity_bug_witness :
    (WideString.new [72, 105]).as_slice.getLast? = some 0 ∧
      (WideString.from_vec [72, 0]).as_slice.getLast? = some 0 ∧
      (WideString.with_capacity 3).as_slice.getLast? = some 0 := by
  refine ⟨?_, ?_, ?_⟩
  · exact C2_null_termination_with_capacity_bug.1 [72, 105] (by decide)
  · exact C2_null_termination_with_capacity_bug.2.2.1 [72, 0] (by decide)
  · exact C2_null_termination_with_capacity_bug.2.2.2.2.1 3 (by decide)

/-- C10.  `from_wide_with_len` clamps the requested length to the slice
length, decodes exactly that prefix (no search for a null terminator:
interior zero units are decoded, as the concrete conjunct shows), and
is total: it returns `Ok` exactly on well-formed prefixes and the
string-conversion error otherwise, never panicking even when the
requested length exceeds the slice length. -/
theorem C10_from_wide_with_len_clamps_and_total (w : List Nat) (n : Nat) :
    from_wide_with_len w n = from_wide_with_len w (min n w.length) ∧
      (w.length ≤ n → from_wide_with_len w n = from_wide_with_len w w.length) ∧
      ((∃ t, from_wide_with_len w n = .ok t) ↔ Utf16Valid (w.take (min n w.length))) ∧
      (¬ Utf16Valid (w.take (min n w.length)) →
        from_wide_with_len w n = .error (.string_conversion "Invalid UTF-16 sequence")) ∧
      from_wide_with_len [65, 0, 66] 3 = .ok [65, 0, 66] := by
  refine ⟨?_, ?_, ?_, ?_, rfl⟩
  · unfold from_wide_with_len
    have : min (min n w.length) w.length = min n w.length := by omega
    rw [this]
  · intro h
    unfold from_wide_with_len
    have : min n w.length = min w.length w.length := by omega
    rw [this]
  · unfold from_wide_with_len
    exact decodeUtf16_ok_iff _
  · intro h
    unfold from_wide_with_len
    exact (decodeUtf16_error_iff _).mpr h

/-- Witness for C10 at a concrete out-of-range request: length 10 on a
3-unit slice is clamped and decodes the whole slice. -/
theorem C10_from_wide_with_len_clamps_and_total_witness :
    from_wide_with_len [65, 0, 66] 10 = from_wide_with_len [65, 0, 66] 3 ∧
      (∃ t, from_wide_with_len [65, 0, 66] 10 = .ok t) := by
  have h := C10_from_wide_with_len_clamps_and_total [65, 0, 66] 10
  refine ⟨h.2.1 (by decide), h.2.2.1.mpr ?_⟩
  exact Utf16Valid.unit (by omega) (Utf16Valid.unit (by omega) (Utf16Valid.unit (by omega) Utf16Valid.nil))

/-- C6.  Decoding is total and fails only with the two declared error
kinds: `from_wide` returns the string-conversion error exactly when the
content before the first zero unit is not well-formed UTF-16 — in
particular on a lone high surrogate, a lone low surrogate, and a
reversed surrogate pair — and `from_wide_ptr` on a null pointer returns
the null-pointer error. -/
theorem C6_error_kinds :
    (∀ w : List Nat, (∃ t, from_wide w = .ok t) ∨
        from_wide w = .error (.string_conversion "Invalid UTF-16 sequence")) ∧
      (∀ w : List Nat,
        from_wide w = .error (.string_conversion "Invalid UTF-16 sequence") ↔
          ¬ Utf16Valid (w.takeWhile (fun c => c != 0))) ∧
      from_wide [0xD800, 0] = .error (.string_conversion "Invalid UTF-16 sequence") ∧
      from_wide [0xDC00, 0] = .error (.string_conversion "Invalid UTF-16 sequence") ∧
      from_wide [0xDC00, 0xD800, 0] = .error (.string_conversion "Invalid UTF-16 sequence") ∧
      from_wide_ptr none = .error (.null_pointer "from_wide_ptr received null pointer") := by
  refine ⟨?_, ?_, rfl, rfl, rfl, rfl⟩
  · intro w
    rw [from_wide_eq_decode_takeWhile]
    rcases decodeUtf16_total (w.takeWhile (fun c => c != 0)) with ⟨_, t, ht⟩ | ⟨_, ht⟩
    · exact Or.inl ⟨t, ht⟩
    · exact Or.inr ht
  · intro w
    rw [from_wide_eq_decode_takeWhile]
    exact decodeUtf16_error_iff _

/-- Witness for C6: decoding a valid buffer is not an error. -/
theorem C6_error_kinds_witness :
    ¬ from_wide [65, 0] = .error (.string_conversion "Invalid UTF-16 sequence") := by
  intro h
  exact (C6_error_kinds.2.1 [65, 0]).mp h
    (Utf16Valid.unit (by omega) Utf16Valid.nil)


/-! The builder: accumulation, finalisation, and the `mem::take`
capacity reset. -/

/-- Texts concatenated are jointly valid. -/
theorem validText_append {a b : List Nat} (ha : ValidText a) (hb : ValidText b) :
    ValidText (a ++ b) := by
  intro x hx
  rcases List.mem_append.mp hx with hx | hx
  · exact ha x hx
  · exact hb x hx

/-- C4 (counterexample to the claim as stated): a builder allocated
with capacity 8 reports capacity 8, yet after `build_and_clear` the
builder's capacity is 0 — the previously allocated capacity is lost
rather than kept for the next accumulation. -/
theorem C4_capacity_lost_counterexample :
    (WideStringBuilder.with_capacity 8).capacity = 8 ∧
      ((((WideStringBuilder.with_capacity 8).push [97]).build_and_clear).2).capacity = 0 ∧
      ¬ 8 ≤ ((((WideStringBuilder.with_capacity 8).push [97]).build_and_clear).2).capacity := by
  refine ⟨rfl, rfl, by decide⟩

/-- C4 (amended).  `build_and_clear` returns the accumulated content
followed by exactly one terminator and leaves the builder empty, but
with a fresh buffer of capacity 0 (`mem::take` replaces the buffer with
`Vec::new()`), so the previously allocated capacity is discarded, not
retained. -/
theorem C4_build_and_clear_returns_content_and_resets (b : WideStringBuilder) :
    (b.build_and_clear).1.data = b.buffer.data ++ [0] ∧
      (b.build_and_clear).2.is_empty = true ∧
      (b.build_and_clear).2.capacity = 0 := by
  exact ⟨rfl, rfl, rfl⟩

/-- C9.  After pushing `a`, `b`, `c` into a fresh builder, `len` is the
sum of the three UTF-16 lengths with no terminator counted, `is_empty`
reflects that same content, and `build` is the concatenated encoding
plus exactly one appended zero unit, which decodes to the concatenation
truncated at its first embedded null. -/
theorem C9_builder_accumulation (a b c : List Nat)
    (ha : ValidText a) (hb : ValidText b) (hc : ValidText c) :
    (((WideStringBuilder.new.push a).push b).push c).len =
        utf16Length a + utf16Length b + utf16Length c ∧
      ((((WideStringBuilder.new.push a).push b).push c).is_empty = true ↔
        (((WideStringBuilder.new.push a).push b).push c).len = 0) ∧
      (((WideStringBuilder.new.push a).push b).push c).build = to_wide (a ++ b ++ c) ∧
      from_wide ((((WideStringBuilder.new.push a).push b).push c).build) =
        .ok ((a ++ b ++ c).takeWhile (fun x => x != 0)) := by
  have hdata : (((WideStringBuilder.new.push a).push b).push c).buffer.data =
      encodeUtf16 a ++ encodeUtf16 b ++ encodeUtf16 c := by
    simp [WideStringBuilder.new, WideStringBuilder.push, VecU16.extend]
  have hbuild : (((WideStringBuilder.new.push a).push b).push c).build =
      to_wide (a ++ b ++ c) := by
    show ((((WideStringBuilder.new.push a).push b).push c).buffer.push 0).data = _
    rw [show ∀ v : VecU16, (v.push 0).data = v.data ++ [0] from fun _ => rfl, hdata]
    unfold to_wide
    rw [encodeUtf16_append, encodeUtf16_append]
  refine ⟨?_, ?_, hbuild, ?_⟩
  · show (((WideStringBuilder.new.push a).push b).push c).buffer.data.length = _
    rw [hdata]
    simp [length_encodeUtf16]
    omega
  · show (((WideStringBuilder.new.push a).push b).push c).buffer.data.isEmpty = true ↔
      (((WideStringBuilder.new.push a).push b).push c).buffer.data.length = 0
    rw [List.isEmpty_iff]
    rw [List.length_eq_zero]
  · rw [hbuild]
    exact from_wide_to_wide (a ++ b ++ c) (validText_append (validText_append ha hb) hc)

/-- Witness for C9: segments `"h"`, `"🎉"` (a surrogate pair), `"!"`:
length 4, and the build decodes back to the full concatenation. -/
theorem C9_builder_accumulation_witness :
    (((WideStringBuilder.new.push [104]).push [0x1F389]).push [33]).len = 4 ∧
      from_wide ((((WideStringBuilder.new.push [104]).push [0x1F389]).push [33]).build) =
        .ok [104, 0x1F389, 33] := by
  have h := C9_builder_accumulation [104] [0x1F389] [33]
    (by decide) (by decide) (by decide)
  exact ⟨h.1, h.2.2.2⟩


/-! The pool: first-fit retrieval, bounded re-pooling. -/

/-- If `position` finds nothing, no element satisfies the predicate. -/
theorem position_none {α : Type} {p : α → Bool} {l : List α}
    (h : position p l = none) : ∀ x ∈ l, p x = false := by
  induction l with
  | nil =>
    intro x hx
    cases hx
  | cons a t ih =>
    intro x hx
    by_cases hp : p a = true
    · rw [position, if_pos hp] at h
      cases h
    · rw [position, if_neg hp] at h
      rcases List.mem_cons.mp hx with rfl | hx
      · exact Bool.eq_false_iff.mpr hp
      · exact ih (Option.map_eq_none'.mp h) x hx

/-- If `position` returns `some i` then `i` is in range, the element at
`i` satisfies the predicate, and no earlier element does: first fit. -/
theorem position_some {α : Type} [Inhabited α] {p : α → Bool} {l : List α} :
    ∀ {i : Nat}, position p l = some i →
      i < l.length ∧ p (l.getD i default) = true ∧
        ∀ j, j < i → p (l.getD j default) = false := by
  induction l with
  | nil =>
    intro i h
    cases h
  | cons a t ih =>
    intro i h
    by_cases hp : p a = true
    · rw [position, if_pos hp] at h
      cases h
      refine ⟨Nat.succ_pos _, hp, ?_⟩
      intro j hj
      exact absurd hj (Nat.not_lt_zero j)
    · rw [position, if_neg hp] at h
      rcases Option.map_eq_some'.mp h with ⟨i', hi', rfl⟩
      obtain ⟨h1, h2, h3⟩ := ih hi'
      refine ⟨by simpa using Nat.succ_lt_succ h1, by simpa using h2, ?_⟩
      intro j hj
      cases j with
      | zero => exact Bool.eq_false_iff.mpr hp
      | succ j' => simpa using h3 j' (by omega)

/-- Reduction of `get` when the first-fit search succeeds. -/
theorem get_eq_some {p : WideStringPool} {s : List Nat} {i : Nat}
    (hpos : position (fun b => decide (utf16Length s + 1 ≤ b.cap)) p.pool = some i) :
    p.get s = (⟨(((swapRemove p.pool i).1.clear).extend (encodeUtf16 s)).push 0⟩,
      { p with pool := (swapRemove p.pool i).2 }) := by
  unfold WideStringPool.get
  simp only [hpos]

/-- Reduction of `get` when nothing in the pool fits. -/
theorem get_eq_none {p : WideStringPool} {s : List Nat}
    (hpos : position (fun b => decide (utf16Length s + 1 ≤ b.cap)) p.pool = none) :
    p.get s =
      (⟨(((VecU16.withCapacity (utf16Length s + 1)).clear).extend (encodeUtf16 s)).push 0⟩,
        p) := by
  unfold WideStringPool.get
  simp only [hpos]

/-- Filling a cleared buffer neither grows nor shrinks it when the
required units fit its capacity, and the content is exactly the
encoding plus the terminator. -/
theorem fill_cleared_buffer (v : VecU16) (s : List Nat)
    (hcap : utf16Length s + 1 ≤ v.cap) :
    ((v.clear.extend (encodeUtf16 s)).push 0).data = encodeUtf16 s ++ [0] ∧
      ((v.clear.extend (encodeUtf16 s)).push 0).cap = v.cap := by
  constructor
  · simp [VecU16.clear, VecU16.extend, VecU16.push]
  · have hlen : (encodeUtf16 s).length = utf16Length s := length_encodeUtf16 s
    have hext : v.clear.extend (encodeUtf16 s) = ⟨encodeUtf16 s, v.cap⟩ := by
      unfold VecU16.clear VecU16.extend VecU16.grow
      simp only [List.nil_append, List.length_nil, Nat.zero_add, hlen]
      rw [if_pos (by omega)]
    rw [hext]
    unfold VecU16.push VecU16.grow
    simp only [hlen]
    rw [if_pos (by omega)]

/-- C7.  `get` always hands back exactly the encoding of `s` followed
by one zero unit; when the first-fit search finds a pooled buffer
(first index whose capacity is at least `utf16Length s + 1`, all
earlier ones too small) that buffer is removed by swap-with-last — the
pool shrinks by one and the handle keeps the pooled buffer's capacity,
so no new allocation happens — and when nothing fits the pool is
untouched and a fresh buffer of capacity exactly `utf16Length s + 1` is
allocated. -/
theorem C7_pool_get_first_fit (p : WideStringPool) (s : List Nat) (hs : ValidText s) :
    (p.get s).1.buffer.data = encodeUtf16 s ++ [0] ∧
      (∀ i, position (fun b => decide (utf16Length s + 1 ≤ b.cap)) p.pool = some i →
        (p.get s).2.pool.length + 1 = p.pool.length ∧
        (p.get s).2.pool = (swapRemove p.pool i).2 ∧
        (p.get s).1.buffer.cap = (p.pool.getD i default).cap ∧
        utf16Length s + 1 ≤ (p.pool.getD i default).cap ∧
        (∀ j, j < i → (p.pool.getD j default).cap < utf16Length s + 1) ∧
        (p.get s).2.max_size = p.max_size ∧
        (p.get s).2.max_capacity = p.max_capacity) ∧
      (position (fun b => decide (utf16Length s + 1 ≤ b.cap)) p.pool = none →
        (p.get s).2 = p ∧
        (p.get s).1.buffer.cap = utf16Length s + 1 ∧
        ∀ b ∈ p.pool, b.cap < utf16Length s + 1) := by
  refine ⟨?_, ?_, ?_⟩
  · cases hpos : position (fun b => decide (utf16Length s + 1 ≤ b.cap)) p.pool with
    | some i =>
      rw [get_eq_some hpos]
      simp [VecU16.clear, VecU16.extend, VecU16.push]
    | none =>
      rw [get_eq_none hpos]
      simp [VecU16.clear, VecU16.extend, VecU16.push]
  · intro i hpos
    obtain ⟨hilt, hpi, hjlt⟩ := position_some hpos
    have hreq : utf16Length s + 1 ≤ (p.pool.getD i default).cap := of_decide_eq_true hpi
    rw [get_eq_some hpos]
    have hfst : (swapRemove p.pool i).1 = p.pool.getD i default := rfl
    refine ⟨?_, rfl, ?_, hreq, ?_, rfl, rfl⟩
    · show ((swapRemove p.pool i).2).length + 1 = p.pool.length
      unfold swapRemove
      simp only [List.length_dropLast, List.length_set]
      omega
    · show ((((swapRemove p.pool i).1.clear).extend (encodeUtf16 s)).push 0).cap = _
      rw [hfst]
      exact (fill_cleared_buffer _ s hreq).2
    · intro j hj
      have := hjlt j hj
      have := of_decide_eq_false this
      omega
  · intro hpos
    rw [get_eq_none hpos]
    refine ⟨rfl, ?_, ?_⟩
    · exact (fill_cleared_buffer (VecU16.withCapacity (utf16Length s + 1)) s
        (by simp [VecU16.withCapacity])).2
    · intro b hb
      have := position_none hpos b hb
      have := of_decide_eq_false this
      omega

/-- Witness for C7: a pool holding one 5-unit buffer serves `"H"`
(2 units required) from the pool — the pool empties, the handle keeps
capacity 5 and carries `[72, 0]`. -/
theorem C7_pool_get_first_fit_witness :
    (({ pool := [⟨[], 5⟩], max_size := 16, max_capacity := 4096 } : WideStringPool).get
        [72]).1.buffer.data = [72, 0] ∧
      (({ pool := [⟨[], 5⟩], max_size := 16, max_capacity := 4096 } : WideStringPool).get
        [72]).2.pool.length + 1 = 1 ∧
      (({ pool := [⟨[], 5⟩], max_size := 16, max_capacity := 4096 } : WideStringPool).get
        [72]).1.buffer.cap = 5 := by
  have h := C7_pool_get_first_fit
    ({ pool := [⟨[], 5⟩], max_size := 16, max_capacity := 4096 } : WideStringPool)
    [72] (by decide)
  obtain ⟨h1, h2, h3, h4, _⟩ := h.2.1 0 (by rfl)
  exact ⟨h.1, h1, h3⟩

/-- C8.  `put` re-pools the cleared buffer exactly when the pool holds
fewer than `max_size` buffers and the buffer's capacity is at most
`max_capacity`, dropping it otherwise; consequently every pool state
reachable by any sequence of constructor and pool operations — the
seeding constructor `with_preallocated` included — holds at most
`max_size` buffers. -/
theorem C8_put_policy_and_pool_bound :
    (∀ (p : WideStringPool) (hd : PooledWideString),
      ((p.pool.length < p.max_size ∧ hd.buffer.cap ≤ p.max_capacity) →
        (p.put hd).pool = p.pool ++ [⟨[], hd.buffer.cap⟩]) ∧
      (¬ (p.pool.length < p.max_size ∧ hd.buffer.cap ≤ p.max_capacity) →
        p.put hd = p)) ∧
      (∀ p : WideStringPool, PoolReachable p → p.pool.length ≤ p.max_size) := by
  constructor
  · intro p hd
    constructor
    · intro hcond
      unfold WideStringPool.put
      rw [if_pos hcond]
      simp [VecU16.clear]
    · intro hcond
      unfold WideStringPool.put
      rw [if_neg hcond]
  · intro p hp
    induction hp with
    | new => exact Nat.zero_le _
    | with_limits m c => exact Nat.zero_le _
    | with_preallocated n c =>
      simp [WideStringPool.with_preallocated]
    | @get q s hr ih =>
      cases hpos : position (fun b => decide (utf16Length s + 1 ≤ b.cap)) q.pool with
      | some i =>
        rw [get_eq_some hpos]
        show ((swapRemove q.pool i).2).length ≤ q.max_size
        unfold swapRemove
        simp only [List.length_dropLast, List.length_set]
        omega
      | none =>
        rw [get_eq_none hpos]
        exact ih
    | @put q hd hr ih =>
      unfold WideStringPool.put
      split
      · next hcond =>
        simp only [List.length_append, List.length_cons, List.length_nil]
        omega
      · exact ih
    | @clear q hr ih => exact Nat.zero_le _
    | @shrink_to q n hr ih =>
      show (q.pool.take n).length ≤ q.max_size
      rw [List.length_take]
      omega

/-- Witness for C8: an undersized buffer returned to a fresh pool is
re-pooled cleared; a pre-seeded pool satisfies the bound. -/
theorem C8_put_policy_and_pool_bound_witness :
    (WideStringPool.new.put ⟨⟨[97], 5⟩⟩).pool = [⟨[], 5⟩] ∧
      (WideStringPool.with_preallocated 2 50).pool.length ≤
        (WideStringPool.with_preallocated 2 50).max_size := by
  refine ⟨?_, C8_put_policy_and_pool_bound.2 _ (PoolReachable.with_preallocated 2 50)⟩
  exact (C8_put_policy_and_pool_bound.1 WideStringPool.new ⟨⟨[97], 5⟩⟩).1 (by decide)


/-! The command-line quoter. -/

/-- Scanning a backslash run just accumulates its length. -/
theorem quoteBodyAux_replicate (n : Nat) (p : Nat) (l : List Char) :
    quoteBodyAux p (List.replicate n '\\' ++ l) = quoteBodyAux (p + n) l := by
  induction n generalizing p with
  | zero => simp
  | succ n ih =>
    rw [List.replicate_succ, List.cons_append]
    simp only [quoteBodyAux]
    rw [if_pos (by decide)]
    rw [ih (p + 1)]
    congr 1
    omega

/-- A maximal backslash run immediately followed by a quote character
is emitted doubled, then the quote itself as backslash-quote. -/
theorem quoteBody_run_quote (n : Nat) (rest : List Char) :
    quoteBody (List.replicate n '\\' ++ '"' :: rest) =
      List.replicate (2 * n) '\\' ++ '\\' :: '"' :: quoteBody rest := by
  unfold quoteBody
  rw [quoteBodyAux_replicate]
  simp only [quoteBodyAux, Nat.zero_add]
  rw [if_neg (by decide), if_pos (by decide)]

/-- A backslash run at end-of-input is emitted doubled. -/
theorem quoteBody_run_end (n : Nat) :
    quoteBody (List.replicate n '\\') = List.replicate (2 * n) '\\' := by
  unfold quoteBody
  rw [show List.replicate n '\\' = List.replicate n '\\' ++ ([] : List Char) by simp,
    quoteBodyAux_replicate]
  simp [quoteBodyAux]

/-- A backslash run followed by anything other than a quote is emitted
unchanged. -/
theorem quoteBody_run_other (n : Nat) {c : Char} (h1 : ¬ c = '\\') (h2 : ¬ c = '"')
    (rest : List Char) :
    quoteBody (List.replicate n '\\' ++ c :: rest) =
      List.replicate n '\\' ++ c :: quoteBody rest := by
  unfold quoteBody
  rw [quoteBodyAux_replicate]
  simp only [quoteBodyAux, Nat.zero_add]
  rw [if_neg (by simp [h1]), if_neg (by simp [h2])]

/-- A literal quote character is emitted as backslash-quote. -/
theorem quoteBody_quote (rest : List Char) :
    quoteBody ('"' :: rest) = '\\' :: '"' :: quoteBody rest := by
  have := quoteBody_run_quote 0 rest
  simpa using this

/-- Any other character is copied. -/
theorem quoteBody_other {c : Char} (h1 : ¬ c = '\\') (h2 : ¬ c = '"') (rest : List Char) :
    quoteBody (c :: rest) = c :: quoteBody rest := by
  have := quoteBody_run_other 0 h1 h2 rest
  simpa using this

/-- The emitted body is never shorter than the input scanned so far. -/
theorem quoteBodyAux_length (p : Nat) (l : List Char) :
    l.length + p ≤ (quoteBodyAux p l).length := by
  induction l generalizing p with
  | nil =>
    simp only [quoteBodyAux, List.length_nil, List.length_replicate]
    omega
  | cons c rest ih =>
    simp only [quoteBodyAux]
    by_cases h1 : (c == '\\') = true
    · rw [if_pos h1]
      have := ih (p + 1)
      simp only [List.length_cons]
      omega
    · rw [if_neg h1]
      by_cases h2 : (c == '"') = true
      · rw [if_pos h2]
        have := ih 0
        simp only [List.length_append, List.length_cons, List.length_replicate]
        omega
      · rw [if_neg h2]
        have := ih 0
        simp only [List.length_append, List.length_cons, List.length_replicate]
        omega

/-- The quoting trigger, characterised in propositional form. -/
theorem needsQuoting_iff (arg : List Char) :
    needsQuoting arg = true ↔
      (arg = [] ∨ ∃ c ∈ arg, c = ' ' ∨ c = '\t' ∨ c = '"') := by
  unfold needsQuoting
  rw [Bool.or_eq_true, List.isEmpty_iff, List.any_eq_true]
  constructor
  · rintro (h | ⟨c, hc, hp⟩)
    · exact Or.inl h
    · refine Or.inr ⟨c, hc, ?_⟩
      simp only [Bool.or_eq_true, beq_iff_eq] at hp
      tauto
  · rintro (h | ⟨c, hc, hp⟩)
    · exact Or.inl h
    · refine Or.inr ⟨c, hc, ?_⟩
      simp only [Bool.or_eq_true, beq_iff_eq]
      tauto

/-- C5.  `quote_arg` returns the argument unchanged exactly when it is
non-empty and free of space, tab and double-quote; otherwise it wraps
the scanned body in double quotes, where a backslash run followed by a
quote or by end-of-input is doubled, a run followed by anything else is
copied, and a literal quote becomes backslash-quote.  The result is
never empty, and the empty argument yields exactly two double-quote
characters; the spec's trailing-backslash example is reproduced. -/
theorem C5_quote_arg_escaping (arg : List Char) :
    (quote_arg arg = arg ↔
      (arg ≠ [] ∧ ∀ c ∈ arg, ¬ (c = ' ' ∨ c = '\t' ∨ c = '"'))) ∧
      quote_arg arg ≠ [] ∧
      quote_arg [] = ['"', '"'] ∧
      (needsQuoting arg = true → quote_arg arg = '"' :: (quoteBody arg ++ ['"'])) ∧
      (∀ n rest, quoteBody (List.replicate n '\\' ++ '"' :: rest) =
        List.replicate (2 * n) '\\' ++ '\\' :: '"' :: quoteBody rest) ∧
      (∀ n, quoteBody (List.replicate n '\\') = List.replicate (2 * n) '\\') ∧
      (∀ n (c : Char), ¬ c = '\\' → ¬ c = '"' → ∀ rest,
        quoteBody (List.replicate n '\\' ++ c :: rest) =
          List.replicate n '\\' ++ c :: quoteBody rest) ∧
      quote_arg ('a' :: ' ' :: '\\' :: []) = '"' :: 'a' :: ' ' :: '\\' :: '\\' :: '"' :: [] := by
  have hlen : ∀ l : List Char, l.length ≤ (quoteBody l).length := by
    intro l
    have := quoteBodyAux_length 0 l
    unfold quoteBody
    omega
  have hquoted_ne : needsQuoting arg = true → quote_arg arg ≠ arg := by
    intro hq heq
    have hform : quote_arg arg = '"' :: (quoteBody arg ++ ['"']) := by
      unfold quote_arg
      rw [if_pos hq]
    rw [hform] at heq
    have h1 : ('"' :: (quoteBody arg ++ ['"'])).length = (quoteBody arg).length + 2 := by
      simp
    have h2 : arg.length = (quoteBody arg).length + 2 := by
      conv_lhs => rw [← heq]
      simp
    have := hlen arg
    omega
  refine ⟨?_, ?_, rfl, ?_, quoteBody_run_quote, quoteBody_run_end,
    fun n c h1 h2 rest => quoteBody_run_other n h1 h2 rest, rfl⟩
  · constructor
    · intro heq
      by_cases hq : needsQuoting arg = true
      · exact absurd heq (hquoted_ne hq)
      · have hnq := hq
        rw [needsQuoting_iff] at hnq
        exact ⟨fun h => hnq (Or.inl h), fun c hc hbad => hnq (Or.inr ⟨c, hc, hbad⟩)⟩
    · intro ⟨hne, hall⟩
      have hq : ¬ needsQuoting arg = true := by
        rw [needsQuoting_iff]
        rintro (h | ⟨c, hc, hbad⟩)
        · exact hne h
        · exact hall c hc hbad
      unfold quote_arg
      rw [if_neg hq]
  · by_cases hq : needsQuoting arg = true
    · unfold quote_arg
      rw [if_pos hq]
      intro h
      cases h
    · unfold quote_arg
      rw [if_neg hq]
      intro h
      subst h
      exact hq rfl
  · intro hq
    unfold quote_arg
    rw [if_pos hq]

/-- Witness for C5: an argument with a space is wrapped; a clean
argument passes through unchanged. -/
theorem C5_quote_arg_escaping_witness :
    quote_arg ('a' :: ' ' :: 'b' :: []) = '"' :: 'a' :: ' ' :: 'b' :: '"' :: [] ∧
      quote_arg ('a' :: 'b' :: []) = 'a' :: 'b' :: [] := by
  constructor
  · have h := (C5_quote_arg_escaping ('a' :: ' ' :: 'b' :: [])).2.2.2.1 (by decide)
    rw [h]
    rfl
  · exact ((C5_quote_arg_escaping ('a' :: 'b' :: [])).1).mpr (by decide)

end ErgonomicWindows
